import Mathlib

/-!
Verification of the deed_direct automation scripts (tools/scripts/*.py).

The development shallowly embeds the pure cores of the scripts:

* the environment-file synchronizer `update_env_file` shared by
  `create-project.py` and `setup.py` (the per-key loop
  `for key, value in env_vars.items(): ...` acting on the file text with
  the regular expression `^KEY=.*` in MULTILINE mode),
* the `.env` reader `read_env_file` shared by `link.py`, `migrate.py` and
  `link-and-migrate.py`,
* the password generator `generate_secure_password` of both
  `setup.py` (alphabet with all punctuation) and `create-project.py`
  (restricted alphabet),
* the retry loops of `setup.py` (`get_project_id`, `get_api_keys`,
  `check_project_exists`, `create_project`, `link_project`,
  `apply_migrations`, `setup_auth_urls`) and the single-shot
  `get_api_keys` of `create-project.py`.

File text is modelled as `List Char`.  The regex operation
`re.compile(f"^{key}=.*", re.MULTILINE)` with `search`, `sub`, and the
append `env_content += f"\n{key}={value}"` is embedded line-wise:
`^` matches at the start of the text and after each newline, `.*`
extends to the end of the line, and `sub` replaces every matching line
with `key=value`.  The embedding is faithful precisely for keys
without regular-expression metacharacters (a metacharacter key behaves
differently in Python: `^A$=.*` never matches, `^A.=.*` matches more
lines) and for replacement values without backslashes (re.sub expands
backslash escapes in the replacement template); this covers every key
and value the scripts synchronize.  The synchronizer theorems restrict
to exactly this domain through explicit `plainKey` (letters, digits,
underscore) and `plainValue` (no newline, no backslash) hypotheses.

External commands are modelled by oracles giving the outcome of each
attempt; `sys.exit(1)` (the `error` helper) is modelled as
`Except.error ()`, and `time.sleep` calls are collected in a trace list.
-/

/-- List of characters of a string literal, used for concrete inputs. -/
def strL (s : String) : List Char := s.data

/-! ## Environment-file synchronizer (create-project.py / setup.py, update_env_file) -/

/-- Split a text at every newline character; mirrors the line structure
seen by a MULTILINE regular expression (a final newline yields a final
empty line, the empty text is one empty line). -/
def splitLines : List Char → List (List Char)
  | [] => [[]]
  | c :: cs =>
    if c = '\n' then [] :: splitLines cs
    else (c :: (splitLines cs).headI) :: (splitLines cs).tail

/-- Join lines with newline separators; inverse of `splitLines`. -/
def joinLines : List (List Char) → List Char
  | [] => []
  | [l] => l
  | l :: ls => l ++ '\n' :: joinLines ls

/-- The text `key=value`, the replacement written by the synchronizer. -/
def lineFor (key value : List Char) : List Char := key ++ '=' :: value

/-- Whether the regular expression `^key=.*` matches at this line, i.e.
the line starts with `key=`.  This literal prefix test coincides with the
Python regular expression exactly when the key contains no
regular-expression metacharacter (`plainKey` keys); the synchronizer
theorems assume that. -/
def matchesKey (key line : List Char) : Bool := decide ((key ++ ['=']) <+: line)

/-- The effect of `pattern.sub(f"{key}={value}", env_content)`: every
matching line is replaced by `key=value`.  The replacement template is
inserted literally, which coincides with re.sub exactly when the value
contains no backslash (`plainValue` values, re.sub expands backslash
escapes in the template); the synchronizer theorems assume that. -/
def substKey (key value : List Char) (lines : List (List Char)) : List (List Char) :=
  lines.map fun l => if matchesKey key l then lineFor key value else l

/-- One iteration of the update loop of `update_env_file`: if
`pattern.search(env_content)` finds a line starting with `key=`, replace
all such lines, else append `"\n" + key + "=" + value`.  Search,
substitution and the branch decision inherit the `matchesKey`/`substKey`
model, so the iteration is faithful on `plainKey` keys and `plainValue`
values. -/
def syncKey (content key value : List Char) : List Char :=
  if (splitLines content).any (matchesKey key) then
    joinLines (substKey key value (splitLines content))
  else content ++ '\n' :: lineFor key value

/-- The per-key loop of `update_env_file` in `create-project.py` and
`setup.py`, applied to a mapping (association list in mapping order) and
the current file text. -/
def update_env_file (envVars : List (List Char × List Char)) (content : List Char) : List Char :=
  envVars.foldl (fun c kv => syncKey c kv.1 kv.2) content

/-- Line-level version of `syncKey`, used to reason about line structure. -/
def syncLines (lines : List (List Char)) (key value : List Char) : List (List Char) :=
  if lines.any (matchesKey key) then substKey key value lines
  else lines ++ [lineFor key value]

/-- Line-level version of `update_env_file`. -/
def updateLines (envVars : List (List Char × List Char)) (lines : List (List Char)) : List (List Char) :=
  envVars.foldl (fun ls kv => syncLines ls kv.1 kv.2) lines

/-- What one synchronization pass does to a single existing line: the
first (and, for well-formed mappings, only) entry whose key matches is
written over it; other lines are untouched. -/
def syncedLine (envVars : List (List Char × List Char)) (l : List Char) : List Char :=
  match envVars.find? (fun kv => matchesKey kv.1 l) with
  | some kv => lineFor kv.1 kv.2
  | none => l

/-- The lines a pass appends: one `key=value` line for each mapping entry
whose key matches no line of the input, in mapping order. -/
def appendedLines (envVars : List (List Char × List Char)) (lines : List (List Char)) : List (List Char) :=
  (envVars.filter (fun kv => !(lines.any (matchesKey kv.1)))).map (fun kv => lineFor kv.1 kv.2)

/-- A comment line of the environment file starts with the hash sign. -/
def isCommentLine (l : List Char) : Bool := decide (l.head? = some '#')

/-- Number of active (non-comment) lines for a given key. -/
def activeCount (key : List Char) (lines : List (List Char)) : Nat :=
  lines.countP (fun l => matchesKey key l && !isCommentLine l)

/-- The lines of a text that no key of the mapping matches. -/
def nonMatchingLines (envVars : List (List Char × List Char)) (lines : List (List Char)) : List (List Char) :=
  lines.filter (fun l => !(envVars.any (fun kv => matchesKey kv.1 l)))

/-- Characters of a plain environment-variable name: ASCII letters,
digits and underscore.  Such characters are regular-expression literals,
and none of them is `=`, `#` or a newline. -/
def plainKeyChar (c : Char) : Bool :=
  (decide ('a' ≤ c) && decide (c ≤ 'z')) || (decide ('A' ≤ c) && decide (c ≤ 'Z')) ||
    (decide ('0' ≤ c) && decide (c ≤ '9')) || (c == '_')

/-- A plain key: every character a letter, digit or underscore.  On such
keys the pattern `^key=.*` of the scripts matches exactly the lines
starting with the literal text `key=`. -/
abbrev plainKey (k : List Char) : Prop := ∀ c ∈ k, plainKeyChar c = true

/-- A plain value: single-line and free of backslashes, so that the
re.sub replacement template `f"{key}={value}"` is inserted literally and
stays on one line. -/
abbrev plainValue (v : List Char) : Prop := '\n' ∉ v ∧ '\\' ∉ v

/-! ## Environment-file reader (link.py / migrate.py / link-and-migrate.py, read_env_file) -/

/-- Whitespace characters removed by the Python str.strip method
(ASCII range). -/
def isSpaceChar (c : Char) : Bool :=
  c == ' ' || c == '\t' || c == '\n' || c == '\r' || c == '\x0b' || c == '\x0c'

/-- Python str.strip: remove leading and trailing whitespace. -/
def stripChars (l : List Char) : List Char :=
  ((l.dropWhile isSpaceChar).reverse.dropWhile isSpaceChar).reverse

/-- Python line.split("=", 1): the part before the first `=` and the part
after it. -/
def splitFirstEq (l : List Char) : List Char × List Char :=
  (l.takeWhile (fun c => decide (c ≠ '=')), (l.dropWhile (fun c => decide (c ≠ '='))).tail)

/-- One line of the reader loop: strip, then skip empty lines, comment
lines and lines without `=`; otherwise split at the first `=`. -/
def parseLine (line : List Char) : Option (List Char × List Char) :=
  let l := stripChars line
  if l = [] then none
  else if l.head? = some '#' then none
  else if '=' ∉ l then none
  else some (splitFirstEq l)

/-- Python dict assignment `d[key] = value`: replace the value in place if
the key is present, else append the binding. -/
def dictInsert (d : List (List Char × List Char)) (k v : List Char) : List (List Char × List Char) :=
  if d.any (fun kv => decide (kv.1 = k)) then
    d.map (fun kv => if kv.1 = k then (k, v) else kv)
  else d ++ [(k, v)]

/-- One loop iteration of read_env_file: parse the line and, when it
parses, assign into the dictionary. -/
def readStep (d : List (List Char × List Char)) (line : List Char) :
    List (List Char × List Char) :=
  match parseLine line with
  | some kv => dictInsert d kv.1 kv.2
  | none => d

/-- The read_env_file loop of `link.py`, `migrate.py` and
`link-and-migrate.py`: fold the parsed lines into a dictionary. -/
def read_env_file (content : List Char) : List (List Char × List Char) :=
  (splitLines content).foldl readStep []

/-- Dictionary lookup (`env_vars.get(key)`). -/
def lookupEnv (d : List (List Char × List Char)) (k : List Char) : Option (List Char) :=
  (d.find? (fun kv => decide (kv.1 = k))).map Prod.snd

/-- The value paired with the last occurrence of a key in a list of
key/value pairs, or a default when the key never occurs. -/
def lastValD (ps : List (List Char × List Char)) (k : List Char)
    (dflt : Option (List Char)) : Option (List Char) :=
  match ps.reverse.find? (fun kv => decide (kv.1 = k)) with
  | some kv => some kv.2
  | none => dflt

/-! ## Password generation (generate_secure_password) -/

/-- Python string.ascii_lowercase. -/
def ascii_lowercase : List Char := (List.range 26).map (fun i => Char.ofNat (97 + i))

/-- Python string.ascii_uppercase. -/
def ascii_uppercase : List Char := (List.range 26).map (fun i => Char.ofNat (65 + i))

/-- Python string.ascii_letters. -/
def ascii_letters : List Char := ascii_lowercase ++ ascii_uppercase

/-- Python string.digits. -/
def ascii_digits : List Char := (List.range 10).map (fun i => Char.ofNat (48 + i))

/-- The punctuation of the `setup.py` alphabet, the string literal
written there (backtick, braces written by code point). -/
def setup_punctuation : List Char :=
  ['!', '#', '$', '%', '&', '(', ')', '*', '+', ',', '-', '.', '/', ':', ';',
   '<', '=', '>', '?', '@', '[', ']', '^', '_', Char.ofNat 96, Char.ofNat 123,
   '|', Char.ofNat 125, '~']

/-- The punctuation of the `create-project.py` safe alphabet,
"#%+,-./:=@^_" plus the two braces. -/
def create_punctuation : List Char :=
  ['#', '%', '+', ',', '-', '.', '/', ':', '=', '@', '^', '_',
   Char.ofNat 123, Char.ofNat 125]

/-- The alphabet of `generate_secure_password` in `setup.py`. -/
def setup_alphabet : List Char := ascii_letters ++ ascii_digits ++ setup_punctuation

/-- The alphabet of `generate_secure_password` in `create-project.py`
(its comment: avoid characters that could cause issues in command-line
arguments). -/
def create_safe_alphabet : List Char := ascii_letters ++ ascii_digits ++ create_punctuation

/-- The characters `create-project.py` documents as unsafe for
command-line use: exclamation, dollar, ampersand, parentheses, star,
semicolon, angle brackets, question mark, square brackets, backslash,
backtick, pipe and the single quote. -/
def cli_unsafe_chars : List Char :=
  ['!', '$', '&', '(', ')', '*', ';', '<', '>', '?', '[', ']', '\\',
   Char.ofNat 96, '|', Char.ofNat 39]

/-- The default password length of both scripts. -/
def default_password_length : Nat := 16

/-- generate_secure_password: `secrets.choice(alphabet)` repeated
`length` times.  The cryptographic random source is abstracted by an
arbitrary pick sequence; pick `i` selects the index (reduced modulo the
alphabet size) of the i-th character. -/
def generate_secure_password (alphabet : List Char) (length : Nat) (pick : Nat → Nat) : List Char :=
  (List.range length).map (fun i => alphabet.getD (pick i % alphabet.length) ' ')

/-! ## Retry loops (setup.py) -/

/-- Attempt numbers of a 3-attempt loop, `range(1, 4)`. -/
def attemptsList3 : List Nat := [1, 2, 3]

/-- Attempt numbers of a 5-attempt loop, `range(1, 6)`. -/
def attemptsList5 : List Nat := [1, 2, 3, 4, 5]

/-- setup.py get_project_id: up to five `projects list` attempts; an
oracle gives, per attempt, the project id obtained from a zero exit code
and valid JSON containing the project, if any.  After every failed
attempt the function sleeps a fixed 10 seconds (the sleep trace is the
second component); exhaustion returns `none`. -/
def get_project_id_go (o : Nat → Option (List Char)) : List Nat → Option (List Char) × List Nat
  | [] => (none, [])
  | a :: rest =>
    match o a with
    | some pid => (some pid, [])
    | none =>
      let r := get_project_id_go o rest
      (r.1, 10 :: r.2)

/-- setup.py get_project_id over attempts 1..5. -/
def get_project_id (o : Nat → Option (List Char)) : Option (List Char) × List Nat :=
  get_project_id_go o attemptsList5

/-- Outcome of one API-key retrieval attempt in setup.py get_api_keys:
the command failed (non-zero exit or empty output); or the JSON parsed,
with the anon and service_role keys found in it; or JSON parsing raised,
with the results of the two regular-expression extractions on the raw
text. -/
inductive ApiAttempt where
  | cmdFailed : ApiAttempt
  | jsonOk : Option (List Char) → Option (List Char) → ApiAttempt
  | jsonBad : Option (List Char) → Option (List Char) → ApiAttempt
deriving DecidableEq

/-- Whether one setup.py get_api_keys attempt succeeds, and with which
key pair: a parsed response needs both keys; an unparseable response
falls back to the regular-expression extraction and needs both matches;
anything else fails the attempt. -/
def apiAttemptResult : ApiAttempt → Option (List Char × List Char)
  | ApiAttempt.cmdFailed => none
  | ApiAttempt.jsonOk (some a) (some s) => some (a, s)
  | ApiAttempt.jsonOk _ _ => none
  | ApiAttempt.jsonBad (some a) (some s) => some (a, s)
  | ApiAttempt.jsonBad _ _ => none

/-- setup.py get_api_keys attempt loop: first success returns; after
each failed attempt the function sleeps `attempt * 5` seconds. -/
def get_api_keys_go (o : Nat → ApiAttempt) : List Nat → Option (List Char × List Char) × List Nat
  | [] => (none, [])
  | a :: rest =>
    match apiAttemptResult (o a) with
    | some ks => (some ks, [])
    | none =>
      let r := get_api_keys_go o rest
      (r.1, a * 5 :: r.2)

/-- setup.py get_api_keys: five attempts, then one `projects show`
fallback; on full exhaustion it returns `(None, None)` to the caller
(the function itself never exits the process). -/
def get_api_keys (o : Nat → ApiAttempt) (showFallback : Option (List Char × List Char)) :
    (Option (List Char) × Option (List Char)) × List Nat :=
  match get_api_keys_go o attemptsList5 with
  | (some ks, tr) => ((some ks.1, some ks.2), tr)
  | (none, tr) =>
    match showFallback with
    | some ks => ((some ks.1, some ks.2), tr)
    | none => ((none, none), tr)

/-- create-project.py get_api_keys: a single `api-keys` invocation with
check=True (a failing command already terminates the process inside
run_command); a JSON parse error is immediately fatal (`error(...)`), as
is a parsed response missing one of the keys.  The regex fields of a
`jsonBad` outcome are never consulted. -/
def create_get_api_keys (att : ApiAttempt) : Except Unit (List Char × List Char) :=
  match att with
  | ApiAttempt.cmdFailed => Except.error ()
  | ApiAttempt.jsonOk (some a) (some s) => Except.ok (a, s)
  | ApiAttempt.jsonOk _ _ => Except.error ()
  | ApiAttempt.jsonBad _ _ => Except.error ()

/-- setup.py check_project_exists: three attempts; an attempt either
determines existence (zero exit, valid JSON) or fails; exhaustion
returns False ("assume it doesn't exist"). -/
def check_project_exists_go (o : Nat → Option Bool) : List Nat → Bool
  | [] => false
  | a :: rest =>
    match o a with
    | some b => b
    | none => check_project_exists_go o rest

/-- setup.py check_project_exists over attempts 1..3. -/
def check_project_exists (o : Nat → Option Bool) : Bool :=
  check_project_exists_go o attemptsList3

/-- setup.py link_project: five link attempts; the fifth failure calls
`error(...)` and terminates the process; a success returns True. -/
def link_project_go (o : Nat → Bool) : List Nat → Except Unit Bool
  | [] => Except.ok false
  | a :: rest =>
    if o a then Except.ok true
    else if a = 5 then Except.error ()
    else link_project_go o rest

/-- setup.py link_project over attempts 1..5. -/
def link_project (o : Nat → Bool) : Except Unit Bool :=
  link_project_go o attemptsList5

/-- setup.py apply_migrations: three `db push` attempts; the third
failure terminates the process. -/
def apply_migrations_go (o : Nat → Bool) : List Nat → Except Unit Bool
  | [] => Except.ok false
  | a :: rest =>
    if o a then Except.ok true
    else if a = 3 then Except.error ()
    else apply_migrations_go o rest

/-- setup.py apply_migrations over attempts 1..3. -/
def apply_migrations (o : Nat → Bool) : Except Unit Bool :=
  apply_migrations_go o attemptsList3

/-- One of the two config-setting loops of setup.py setup_auth_urls:
success breaks out, the third failure terminates the process. -/
def auth_config_loop (o : Nat → Bool) : List Nat → Except Unit Unit
  | [] => Except.ok ()
  | a :: rest =>
    if o a then Except.ok ()
    else if a = 3 then Except.error ()
    else auth_config_loop o rest

/-- setup.py setup_auth_urls: set the site URL, then the redirect URLs,
each with the three-attempt loop; returns True when both succeed. -/
def setup_auth_urls (o1 o2 : Nat → Bool) : Except Unit Bool :=
  match auth_config_loop o1 attemptsList3 with
  | Except.error _ => Except.error ()
  | Except.ok _ =>
    match auth_config_loop o2 attemptsList3 with
    | Except.error _ => Except.error ()
    | Except.ok _ => Except.ok true

/-- The create-command loop of setup.py create_project: three attempts,
breaking at the first zero exit code; returns whether any attempt
succeeded.  On exhaustion the source only logs "Will try to continue in
case the project was actually created despite the error". -/
def create_cmd_loop (o : Nat → Bool) : List Nat → Bool
  | [] => false
  | a :: rest => if o a then true else create_cmd_loop o rest

/-- setup.py create_project: run the create-command loop (its outcome is
recorded but does not gate the continuation), then look the project id
up; only a failed lookup terminates the process.  The generated database
password is threaded through unchanged. -/
def create_project (co : Nat → Bool) (ido : Nat → Option (List Char)) (pw : List Char) :
    Bool × Except Unit (List Char × List Char) :=
  let created := create_cmd_loop co attemptsList3
  match (get_project_id ido).1 with
  | some pid => (created, Except.ok (pid, pw))
  | none => (created, Except.error ())

/-- The mapping synchronized by setup.py update_env_file, in source
order. -/
def setup_env_vars (projectUrl anonKey serviceKey dbPassword orgId : List Char) :
    List (List Char × List Char) :=
  [(strL "NEXT_PUBLIC_SUPABASE_URL", projectUrl),
   (strL "NEXT_PUBLIC_SUPABASE_ANON_KEY", anonKey),
   (strL "SUPABASE_URL", projectUrl),
   (strL "SUPABASE_ANON_KEY", anonKey),
   (strL "SUPABASE_SERVICE_KEY", serviceKey),
   (strL "POSTGRES_PASSWORD", dbPassword),
   (strL "SUPABASE_ORG_ID", orgId)]

/-! ## Lines of a text -/

theorem splitLines_ne_nil (s : List Char) : splitLines s ≠ [] := by
  cases s with
  | nil => simp [splitLines]
  | cons c cs =>
    simp only [splitLines]
    split <;> simp

theorem splitLines_cons_nl (cs : List Char) : splitLines ('\n' :: cs) = [] :: splitLines cs := by
  simp [splitLines]

theorem splitLines_cons_of_ne {c : Char} (cs : List Char) (h : c ≠ '\n') :
    splitLines (c :: cs) = (c :: (splitLines cs).headI) :: (splitLines cs).tail := by
  simp [splitLines, h]

theorem exists_cons_splitLines (cs : List Char) :
    ∃ t rest, splitLines cs = t :: rest := by
  cases hspl : splitLines cs with
  | nil => exact absurd hspl (splitLines_ne_nil cs)
  | cons t rest => exact ⟨t, rest, rfl⟩

theorem noNl_of_mem_splitLines (s : List Char) : ∀ l ∈ splitLines s, '\n' ∉ l := by
  induction s with
  | nil =>
    intro l h
    simp [splitLines] at h
    simp [h]
  | cons c cs ih =>
    intro l h
    by_cases hc : c = '\n'
    · subst hc
      rw [splitLines_cons_nl] at h
      rcases List.mem_cons.mp h with h | h
      · simp [h]
      · exact ih l h
    · rw [splitLines_cons_of_ne cs hc] at h
      obtain ⟨t, rest, hsp⟩ := exists_cons_splitLines cs
      rw [hsp] at h
      simp only [List.headI, List.tail] at h
      rcases List.mem_cons.mp h with h | h
      · subst h
        intro hm
        rcases List.mem_cons.mp hm with h | h
        · exact hc h.symm
        · exact ih t (by rw [hsp]; exact List.mem_cons_self t rest) h
      · exact ih l (by rw [hsp]; exact List.mem_cons_of_mem t h)

theorem joinLines_cons {l : List Char} {ls : List (List Char)} (h : ls ≠ []) :
    joinLines (l :: ls) = l ++ '\n' :: joinLines ls := by
  cases ls with
  | nil => exact absurd rfl h
  | cons x xs => rfl

theorem joinLines_splitLines (s : List Char) : joinLines (splitLines s) = s := by
  induction s with
  | nil => rfl
  | cons c cs ih =>
    by_cases hc : c = '\n'
    · subst hc
      rw [splitLines_cons_nl, joinLines_cons (splitLines_ne_nil cs), ih]
      rfl
    · rw [splitLines_cons_of_ne cs hc]
      obtain ⟨t, rest, hsp⟩ := exists_cons_splitLines cs
      rw [hsp]
      simp only [List.headI, List.tail]
      cases rest with
      | nil =>
        rw [hsp] at ih
        simp only [joinLines] at ih ⊢
        rw [ih]
      | cons y ys =>
        rw [hsp, joinLines_cons (by simp)] at ih
        rw [joinLines_cons (by simp), List.cons_append, ih]

theorem splitLines_of_noNl {l : List Char} (h : '\n' ∉ l) : splitLines l = [l] := by
  induction l with
  | nil => rfl
  | cons c cs ih =>
    have hc : c ≠ '\n' := fun hh => h (hh ▸ List.mem_cons_self c cs)
    rw [splitLines_cons_of_ne cs hc, ih (fun hm => h (List.mem_cons_of_mem c hm))]
    rfl

theorem splitLines_append (s t : List Char) :
    splitLines (s ++ '\n' :: t) = splitLines s ++ splitLines t := by
  induction s with
  | nil => rw [List.nil_append, splitLines_cons_nl]; rfl
  | cons c cs ih =>
    by_cases hc : c = '\n'
    · subst hc
      rw [List.cons_append, splitLines_cons_nl, splitLines_cons_nl, ih]
      rfl
    · rw [List.cons_append, splitLines_cons_of_ne _ hc, splitLines_cons_of_ne _ hc, ih]
      obtain ⟨h0, rest, hsp⟩ := exists_cons_splitLines cs
      rw [hsp]
      simp

theorem splitLines_joinLines {ls : List (List Char)} (h0 : ls ≠ [])
    (h : ∀ l ∈ ls, '\n' ∉ l) : splitLines (joinLines ls) = ls := by
  induction ls with
  | nil => exact absurd rfl h0
  | cons l rest ih =>
    cases rest with
    | nil =>
      simp only [joinLines]
      exact splitLines_of_noNl (h l (List.mem_cons_self l []))
    | cons y ys =>
      rw [joinLines_cons (by simp), splitLines_append,
        splitLines_of_noNl (h l (List.mem_cons_self l _)),
        ih (by simp) (fun a ha => h a (List.mem_cons_of_mem l ha))]
      rfl

/-! ## Key matching -/

theorem matchesKey_iff {k l : List Char} : matchesKey k l = true ↔ (k ++ ['=']) <+: l := by
  simp [matchesKey]

theorem lineFor_eq_append (k v : List Char) : lineFor k v = (k ++ ['=']) ++ v := by
  simp [lineFor]

theorem key_eq_of_prefix_eq {k0 k : List Char} (hk : '=' ∉ k)
    (h : (k0 ++ ['=']) <+: (k ++ ['='])) : k0 = k := by
  induction k0 generalizing k with
  | nil =>
    cases k with
    | nil => rfl
    | cons b k' =>
      rw [List.nil_append, List.cons_append] at h
      rcases List.cons_prefix_cons.mp h with ⟨hb, _⟩
      exact absurd (hb ▸ List.mem_cons_self b k') hk
  | cons a k0' ih =>
    cases k with
    | nil =>
      rw [List.cons_append, List.nil_append] at h
      rcases List.cons_prefix_cons.mp h with ⟨ha, h'⟩
      have := List.IsPrefix.length_le h'
      simp at this
    | cons b k' =>
      rw [List.cons_append, List.cons_append] at h
      rcases List.cons_prefix_cons.mp h with ⟨hab, h'⟩
      have hk' : '=' ∉ k' := fun hm => hk (List.mem_cons_of_mem b hm)
      rw [hab, ih hk' h']

theorem matchesKey_lineFor_self (k v : List Char) : matchesKey k (lineFor k v) = true := by
  rw [matchesKey_iff, lineFor_eq_append]
  exact List.prefix_append _ _

theorem matchesKey_lineFor_cases {k0 k v : List Char} (hk : '=' ∉ k)
    (h : matchesKey k0 (lineFor k v) = true) : k0 = k ∨ (k ++ ['=']) <+: k0 := by
  rw [matchesKey_iff, lineFor_eq_append] at h
  have hker : (k ++ ['=']) <+: (k ++ ['=']) ++ v := List.prefix_append _ _
  rcases List.prefix_or_prefix_of_prefix h hker with h' | h'
  · exact Or.inl (key_eq_of_prefix_eq hk h')
  · by_cases hlen : (k ++ ['=']).length ≤ k0.length
    · right
      exact List.prefix_of_prefix_length_le h' (List.prefix_append _ _) hlen
    · left
      have h1 := List.IsPrefix.length_le h'
      simp only [List.length_append, List.length_cons, List.length_nil] at h1 hlen
      have hlen2 : (k0 ++ ['=']).length = ((k ++ ['=']) : List Char).length := by
        simp only [List.length_append, List.length_cons, List.length_nil]
        omega
      have := List.IsPrefix.eq_of_length h' hlen2.symm
      exact (List.append_left_injective _).eq_iff.mp this.symm

theorem matchesKey_lineFor_iff {k0 k v : List Char} (hk : '=' ∉ k) (hk0 : '=' ∉ k0) :
    matchesKey k0 (lineFor k v) = true ↔ k0 = k := by
  constructor
  · intro h
    rcases matchesKey_lineFor_cases hk h with h' | h'
    · exact h'
    · obtain ⟨t, ht⟩ := h'
      exact absurd (ht ▸ (List.mem_append.mpr (Or.inl (List.mem_append.mpr
        (Or.inr (List.mem_singleton.mpr rfl)))))) hk0
  · intro h
    rw [h]
    exact matchesKey_lineFor_self k v

theorem key_unique_of_matches {k k' l : List Char} (hk : '=' ∉ k) (hk' : '=' ∉ k')
    (h : matchesKey k l = true) (h' : matchesKey k' l = true) : k = k' := by
  rw [matchesKey_iff] at h h'
  rcases List.prefix_or_prefix_of_prefix h h' with hp | hp
  · exact key_eq_of_prefix_eq hk' hp
  · exact (key_eq_of_prefix_eq hk hp).symm

theorem matchesKey_of_extends {k k0 l : List Char} (h : (k ++ ['=']) <+: k0)
    (h0 : matchesKey k0 l = true) : matchesKey k l = true := by
  rw [matchesKey_iff] at h0 ⊢
  exact List.IsPrefix.trans (List.IsPrefix.trans h (List.prefix_append _ _)) h0

/-! ## Structure of one synchronization pass -/

theorem syncedLine_lineFor_fix {m : List (List Char × List Char)} {k v : List Char}
    (hk : '=' ∉ k) (hkeys : ∀ kv ∈ m, '=' ∉ kv.1) (hnm : k ∉ m.map Prod.fst) :
    syncedLine m (lineFor k v) = lineFor k v := by
  have hnone : m.find? (fun kv => matchesKey kv.1 (lineFor k v)) = none := by
    rw [List.find?_eq_none]
    intro kv hm hmt
    exact hnm (((matchesKey_lineFor_iff hk (hkeys kv hm)).mp hmt) ▸
      List.mem_map_of_mem Prod.fst hm)
  simp [syncedLine, hnone]

theorem matchesKey_subst_other {k v k' : List Char} (hk : '=' ∉ k) (hk' : '=' ∉ k')
    (hne : k' ≠ k) (l : List Char) :
    matchesKey k' (if matchesKey k l then lineFor k v else l) = matchesKey k' l := by
  by_cases hml : matchesKey k l = true
  · rw [if_pos hml]
    have h1 : matchesKey k' (lineFor k v) = false := by
      rw [Bool.eq_false_iff]
      intro hh
      exact hne ((matchesKey_lineFor_iff hk hk').mp hh)
    have h2 : matchesKey k' l = false := by
      rw [Bool.eq_false_iff]
      intro hh
      exact hne (key_unique_of_matches hk hk' hml hh).symm
    rw [h1, h2]
  · rw [if_neg hml]

theorem any_matches_substKey {k v k' : List Char} (hk : '=' ∉ k) (hk' : '=' ∉ k')
    (hne : k' ≠ k) (ls : List (List Char)) :
    (substKey k v ls).any (matchesKey k') = ls.any (matchesKey k') := by
  unfold substKey
  induction ls with
  | nil => rfl
  | cons l t ih =>
    simp only [List.map_cons, List.any_cons, ih]
    rw [matchesKey_subst_other hk hk' hne l]

theorem updateLines_cons (kv : List Char × List Char) (m : List (List Char × List Char))
    (ls : List (List Char)) :
    updateLines (kv :: m) ls = updateLines m (syncLines ls kv.1 kv.2) := rfl

theorem updateLines_eq (m : List (List Char × List Char))
    (hnd : (m.map Prod.fst).Nodup) (hk : ∀ kv ∈ m, '=' ∉ kv.1) (ls : List (List Char)) :
    updateLines m ls = ls.map (syncedLine m) ++ appendedLines m ls := by
  induction m generalizing ls with
  | nil =>
    have hmap : ls.map (syncedLine []) = ls := by
      rw [show syncedLine [] = id from rfl, List.map_id]
    simp [updateLines, appendedLines, hmap]
  | cons kv m' ih =>
    rw [List.map_cons, List.nodup_cons] at hnd
    obtain ⟨hknm, hnd'⟩ := hnd
    have hkk : '=' ∉ kv.1 := hk kv (List.mem_cons_self kv m')
    have hk' : ∀ kv' ∈ m', '=' ∉ kv'.1 := fun kv' hm => hk kv' (List.mem_cons_of_mem kv hm)
    have hkeyne : ∀ kv' ∈ m', kv'.1 ≠ kv.1 := by
      intro kv' hm he
      exact hknm (he ▸ List.mem_map_of_mem Prod.fst hm)
    rw [updateLines_cons]
    by_cases hany : ls.any (matchesKey kv.1) = true
    · rw [show syncLines ls kv.1 kv.2 = substKey kv.1 kv.2 ls from by
        simp [syncLines, hany]]
      rw [ih hnd' hk']
      have hA1 : (substKey kv.1 kv.2 ls).map (syncedLine m') =
          ls.map (syncedLine (kv :: m')) := by
        unfold substKey
        rw [List.map_map]
        refine List.map_congr_left ?_
        intro l _
        simp only [Function.comp]
        by_cases hml : matchesKey kv.1 l = true
        · rw [if_pos hml]
          rw [syncedLine_lineFor_fix hkk hk' hknm]
          unfold syncedLine
          simp only [List.find?_cons, hml]
        · rw [if_neg hml]
          show syncedLine m' l = syncedLine (kv :: m') l
          unfold syncedLine
          simp only [List.find?_cons, Bool.eq_false_iff.mpr hml]
      have hA2 : appendedLines m' (substKey kv.1 kv.2 ls) = appendedLines (kv :: m') ls := by
        unfold appendedLines
        have hfe : (kv :: m').filter (fun kv' => !(ls.any (matchesKey kv'.1))) =
            m'.filter (fun kv' => !(ls.any (matchesKey kv'.1))) := by
          rw [List.filter_cons_of_neg]
          simp [hany]
        rw [hfe]
        congr 1
        refine List.filter_congr ?_
        intro kv' hm
        rw [any_matches_substKey hkk (hk' kv' hm) (hkeyne kv' hm) ls]
      rw [hA1, hA2]
    · have hanyf : ls.any (matchesKey kv.1) = false := Bool.eq_false_iff.mpr hany
      have hnomatch : ∀ l ∈ ls, matchesKey kv.1 l = false := by
        intro l hl
        rw [Bool.eq_false_iff]
        intro ht
        exact hany (List.any_eq_true.mpr ⟨l, hl, ht⟩)
      rw [show syncLines ls kv.1 kv.2 = ls ++ [lineFor kv.1 kv.2] from by
        simp [syncLines, hanyf]]
      rw [ih hnd' hk']
      rw [List.map_append, List.map_singleton, syncedLine_lineFor_fix hkk hk' hknm]
      have hB2 : ls.map (syncedLine m') = ls.map (syncedLine (kv :: m')) := by
        refine List.map_congr_left ?_
        intro l hl
        show syncedLine m' l = syncedLine (kv :: m') l
        unfold syncedLine
        simp only [List.find?_cons, hnomatch l hl]
      have hB3 : appendedLines m' (ls ++ [lineFor kv.1 kv.2]) = appendedLines m' ls := by
        unfold appendedLines
        congr 1
        refine List.filter_congr ?_
        intro kv' hm
        rw [List.any_append]
        have : [lineFor kv.1 kv.2].any (matchesKey kv'.1) = false := by
          simp only [List.any_cons, List.any_nil, Bool.or_false]
          rw [Bool.eq_false_iff]
          intro hh
          exact (hkeyne kv' hm) ((matchesKey_lineFor_iff hkk (hk' kv' hm)).mp hh)
        rw [this, Bool.or_false]
      have hB4 : appendedLines (kv :: m') ls =
          lineFor kv.1 kv.2 :: appendedLines m' ls := by
        unfold appendedLines
        rw [List.filter_cons_of_pos (by simp [hanyf]), List.map_cons]
      rw [hB2, hB3, hB4, List.append_assoc, List.singleton_append]

theorem find?_lineFor_self {m : List (List Char × List Char)} {kv : List Char × List Char}
    (hm : kv ∈ m) (hnd : (m.map Prod.fst).Nodup) (hk : ∀ kv' ∈ m, '=' ∉ kv'.1) :
    m.find? (fun kv' => matchesKey kv'.1 (lineFor kv.1 kv.2)) = some kv := by
  induction m with
  | nil => exact absurd hm (List.not_mem_nil kv)
  | cons kv0 m' ih =>
    rw [List.map_cons, List.nodup_cons] at hnd
    obtain ⟨hknm, hnd'⟩ := hnd
    have hk0 : '=' ∉ kv0.1 := hk kv0 (List.mem_cons_self kv0 m')
    have hk' : ∀ kv' ∈ m', '=' ∉ kv'.1 := fun kv' h => hk kv' (List.mem_cons_of_mem kv0 h)
    rcases List.mem_cons.mp hm with he | hmem
    · subst he
      simp only [List.find?_cons, matchesKey_lineFor_self]
    · have hkm : '=' ∉ kv.1 := hk' kv hmem
      have hpred : matchesKey kv0.1 (lineFor kv.1 kv.2) = false := by
        rw [Bool.eq_false_iff]
        intro hh
        exact hknm (((matchesKey_lineFor_iff hkm hk0).mp hh) ▸
          List.mem_map_of_mem Prod.fst hmem)
      simp only [List.find?_cons, hpred]
      exact ih hmem hnd' hk'

theorem syncedLine_lineFor_mem {m : List (List Char × List Char)} {kv : List Char × List Char}
    (hm : kv ∈ m) (hnd : (m.map Prod.fst).Nodup) (hk : ∀ kv' ∈ m, '=' ∉ kv'.1) :
    syncedLine m (lineFor kv.1 kv.2) = lineFor kv.1 kv.2 := by
  unfold syncedLine
  rw [find?_lineFor_self hm hnd hk]

theorem syncedLine_idem {m : List (List Char × List Char)} (hnd : (m.map Prod.fst).Nodup)
    (hk : ∀ kv' ∈ m, '=' ∉ kv'.1) (l : List Char) :
    syncedLine m (syncedLine m l) = syncedLine m l := by
  cases hfind : m.find? (fun kv => matchesKey kv.1 l) with
  | none => simp [syncedLine, hfind]
  | some kv =>
    have h1 : syncedLine m l = lineFor kv.1 kv.2 := by simp [syncedLine, hfind]
    rw [h1]
    exact syncedLine_lineFor_mem (List.mem_of_find?_eq_some hfind) hnd hk

theorem appendedLines_after_pass (m : List (List Char × List Char))
    (hk : ∀ kv' ∈ m, '=' ∉ kv'.1) (ls : List (List Char)) :
    appendedLines m (ls.map (syncedLine m) ++ appendedLines m ls) = [] := by
  unfold appendedLines
  rw [List.map_eq_nil_iff, List.filter_eq_nil_iff]
  intro kv hm
  simp only [Bool.not_eq_true]
  rw [Bool.not_eq_false']
  by_cases hany : ls.any (matchesKey kv.1) = true
  · obtain ⟨l, hl, hml⟩ := List.any_eq_true.mp hany
    have hsome : (m.find? (fun kv' => matchesKey kv'.1 l)).isSome := by
      rw [List.find?_isSome]
      exact ⟨kv, hm, hml⟩
    obtain ⟨kv', hfind⟩ := Option.isSome_iff_exists.mp hsome
    have hkv'm : kv' ∈ m := List.mem_of_find?_eq_some hfind
    have hmatch' : matchesKey kv'.1 l = true := by simpa using List.find?_some hfind
    have hkeq : kv'.1 = kv.1 :=
      key_unique_of_matches (hk kv' hkv'm) (hk kv hm) hmatch' hml
    have hsl : syncedLine m l = lineFor kv'.1 kv'.2 := by simp [syncedLine, hfind]
    refine List.any_eq_true.mpr ⟨syncedLine m l, ?_, ?_⟩
    · exact List.mem_append.mpr (Or.inl (List.mem_map_of_mem (syncedLine m) hl))
    · rw [hsl, hkeq]
      exact matchesKey_lineFor_self kv.1 kv'.2
  · have hanyf : ls.any (matchesKey kv.1) = false := Bool.eq_false_iff.mpr hany
    refine List.any_eq_true.mpr ⟨lineFor kv.1 kv.2, ?_, matchesKey_lineFor_self kv.1 kv.2⟩
    refine List.mem_append.mpr (Or.inr ?_)
    refine List.mem_map_of_mem _ (List.mem_filter.mpr ⟨hm, ?_⟩)
    simp [hanyf]

theorem updateLines_idem (m : List (List Char × List Char))
    (hnd : (m.map Prod.fst).Nodup) (hk : ∀ kv' ∈ m, '=' ∉ kv'.1) (ls : List (List Char)) :
    updateLines m (updateLines m ls) = updateLines m ls := by
  rw [updateLines_eq m hnd hk ls, updateLines_eq m hnd hk _,
    appendedLines_after_pass m hk ls, List.append_nil, List.map_append, List.map_map]
  congr 1
  · refine List.map_congr_left ?_
    intro l _
    exact syncedLine_idem hnd hk l
  · refine (List.map_congr_left ?_).trans (List.map_id _)
    intro L hL
    unfold appendedLines at hL
    obtain ⟨kv, hkv, hLe⟩ := List.mem_map.mp hL
    have hkvm : kv ∈ m := (List.mem_filter.mp hkv).1
    rw [← hLe]
    exact syncedLine_lineFor_mem hkvm hnd hk

/-! ## From line level back to file text -/

theorem noNl_lineFor {k v : List Char} (hknl : '\n' ∉ k) (hvnl : '\n' ∉ v) :
    '\n' ∉ lineFor k v := by
  unfold lineFor
  intro hm
  rcases List.mem_append.mp hm with h | h
  · exact hknl h
  · rcases List.mem_cons.mp h with h | h
    · exact absurd h (by decide)
    · exact hvnl h

theorem splitLines_syncKey {c k v : List Char} (hknl : '\n' ∉ k) (hvnl : '\n' ∉ v) :
    splitLines (syncKey c k v) = syncLines (splitLines c) k v := by
  by_cases hany : (splitLines c).any (matchesKey k) = true
  · rw [show syncKey c k v = joinLines (substKey k v (splitLines c)) from by
      simp [syncKey, hany]]
    rw [show syncLines (splitLines c) k v = substKey k v (splitLines c) from by
      simp [syncLines, hany]]
    refine splitLines_joinLines ?_ ?_
    · unfold substKey
      rw [Ne, List.map_eq_nil_iff]
      exact splitLines_ne_nil c
    · intro l hl
      unfold substKey at hl
      obtain ⟨l0, hl0, hle⟩ := List.mem_map.mp hl
      rw [← hle]
      by_cases hml : matchesKey k l0 = true
      · rw [if_pos hml]
        exact noNl_lineFor hknl hvnl
      · rw [if_neg hml]
        exact noNl_of_mem_splitLines c l0 hl0
  · have hanyf : (splitLines c).any (matchesKey k) = false := Bool.eq_false_iff.mpr hany
    rw [show syncKey c k v = c ++ '\n' :: lineFor k v from by simp [syncKey, hanyf]]
    rw [show syncLines (splitLines c) k v = splitLines c ++ [lineFor k v] from by
      simp [syncLines, hanyf]]
    rw [splitLines_append, splitLines_of_noNl (noNl_lineFor hknl hvnl)]

theorem splitLines_update_env_file {m : List (List Char × List Char)}
    (hm : ∀ kv ∈ m, '\n' ∉ kv.1 ∧ '\n' ∉ kv.2) (c : List Char) :
    splitLines (update_env_file m c) = updateLines m (splitLines c) := by
  induction m generalizing c with
  | nil => rfl
  | cons kv m' ih =>
    have h1 : update_env_file (kv :: m') c = update_env_file m' (syncKey c kv.1 kv.2) := rfl
    have hkv := hm kv (List.mem_cons_self kv m')
    rw [h1, ih (fun kv' h => hm kv' (List.mem_cons_of_mem kv h)),
      splitLines_syncKey hkv.1 hkv.2, updateLines_cons]

/-! ## At most one active line per key -/

theorem isCommentLine_of_matches_hash {k0 l : List Char} (hh : k0.head? = some '#')
    (hm : matchesKey k0 l = true) : isCommentLine l = true := by
  rw [matchesKey_iff] at hm
  obtain ⟨r, hr⟩ := hm
  cases k0 with
  | nil => simp at hh
  | cons c t =>
    simp only [List.head?] at hh
    obtain rfl : c = '#' := by injection hh
    rw [← hr]
    rfl

theorem not_comment_of_matches {k0 l : List Char} (hh : k0.head? ≠ some '#')
    (hm : matchesKey k0 l = true) : isCommentLine l = false := by
  rw [matchesKey_iff] at hm
  obtain ⟨r, hr⟩ := hm
  cases k0 with
  | nil =>
    rw [← hr]
    rfl
  | cons c t =>
    have hc : c ≠ '#' := by
      intro he
      exact hh (by rw [he]; rfl)
    rw [← hr]
    simp [isCommentLine, hc]

theorem activeCount_hash_zero {k0 : List Char} (hh : k0.head? = some '#')
    (ls : List (List Char)) : activeCount k0 ls = 0 := by
  unfold activeCount
  rw [List.countP_eq_zero]
  intro l _ hl
  rcases Bool.and_eq_true_iff.mp hl with ⟨hm, hnc⟩
  rw [isCommentLine_of_matches_hash hh hm] at hnc
  exact absurd hnc (by decide)

theorem activeCount_eq_countP {k0 : List Char} (hh : k0.head? ≠ some '#')
    (ls : List (List Char)) : activeCount k0 ls = ls.countP (matchesKey k0) := by
  unfold activeCount
  refine List.countP_congr ?_
  intro l _
  constructor
  · intro hl
    exact (Bool.and_eq_true_iff.mp hl).1
  · intro hl
    rw [hl, not_comment_of_matches hh hl]
    rfl

theorem activeCount_syncLines {k v : List Char} (hk : '=' ∉ k) (ls : List (List Char))
    (h : ∀ k1, activeCount k1 ls ≤ 1) (k0 : List Char) :
    activeCount k0 (syncLines ls k v) ≤ 1 := by
  by_cases hk0h : k0.head? = some '#'
  · rw [activeCount_hash_zero hk0h]
    exact Nat.zero_le 1
  rw [activeCount_eq_countP hk0h]
  have hcountk0 : ls.countP (matchesKey k0) ≤ 1 := by
    rw [← activeCount_eq_countP hk0h]
    exact h k0
  unfold syncLines
  by_cases hany : ls.any (matchesKey k) = true
  · rw [if_pos hany]
    unfold substKey
    rw [List.countP_map]
    by_cases hk0k : k0 = k
    · subst hk0k
      have hpt : ∀ l ∈ ls,
          ((matchesKey k0 ∘ fun l => if matchesKey k0 l then lineFor k0 v else l) l) ↔
            matchesKey k0 l := by
        intro l _
        simp only [Function.comp]
        by_cases hml : matchesKey k0 l = true
        · rw [if_pos hml, matchesKey_lineFor_self, hml]
        · rw [if_neg hml]
      rw [List.countP_congr hpt]
      exact hcountk0
    by_cases hext : (k ++ ['=']) <+: k0
    · have hkh : k.head? ≠ some '#' := by
        intro hkc
        apply hk0h
        obtain ⟨r, hr⟩ := hext
        cases k with
        | nil => simp at hkc
        | cons c t =>
          simp only [List.head?] at hkc
          obtain rfl : c = '#' := by injection hkc
          rw [← hr]
          rfl
      have hcountk : ls.countP (matchesKey k) ≤ 1 := by
        rw [← activeCount_eq_countP hkh]
        exact h k
      refine le_trans (List.countP_mono_left ?_) hcountk
      intro l _ hpl
      simp only [Function.comp] at hpl
      by_cases hml : matchesKey k l = true
      · exact hml
      · rw [if_neg hml] at hpl
        exact absurd (matchesKey_of_extends hext hpl) hml
    · refine le_trans (List.countP_mono_left ?_) hcountk0
      intro l _ hpl
      simp only [Function.comp] at hpl
      by_cases hml : matchesKey k l = true
      · rw [if_pos hml] at hpl
        rcases matchesKey_lineFor_cases hk hpl with he | he
        · exact absurd he hk0k
        · exact absurd he hext
      · rw [if_neg hml] at hpl
        exact hpl
  · rw [if_neg hany]
    have hnomatch : ∀ l ∈ ls, ¬matchesKey k l = true := by
      intro l hl ht
      exact hany (List.any_eq_true.mpr ⟨l, hl, ht⟩)
    rw [List.countP_append, List.countP_singleton]
    by_cases hpL : matchesKey k0 (lineFor k v) = true
    · rw [if_pos hpL]
      have hzero : ls.countP (matchesKey k0) = 0 := by
        rw [List.countP_eq_zero]
        rcases matchesKey_lineFor_cases hk hpL with he | he
        · subst he
          exact hnomatch
        · intro l hl hml
          exact hnomatch l hl (matchesKey_of_extends he hml)
      rw [hzero]
    · rw [if_neg hpL]
      rw [Nat.add_zero]
      exact hcountk0

theorem activeCount_updateLines (m : List (List Char × List Char))
    (hk : ∀ kv ∈ m, '=' ∉ kv.1) (ls : List (List Char))
    (h : ∀ k1, activeCount k1 ls ≤ 1) (k0 : List Char) :
    activeCount k0 (updateLines m ls) ≤ 1 := by
  induction m generalizing ls with
  | nil => exact h k0
  | cons kv m' ih =>
    rw [updateLines_cons]
    exact ih (fun kv' hm => hk kv' (List.mem_cons_of_mem kv hm))
      (syncLines ls kv.1 kv.2)
      (activeCount_syncLines (hk kv (List.mem_cons_self kv m')) ls h)

/-! ## Reader: last assignment wins -/

theorem lookup_map_subst_self {d : List (List Char × List Char)} {k v : List Char}
    (hany : d.any (fun kv => decide (kv.1 = k)) = true) :
    lookupEnv (d.map (fun kv => if kv.1 = k then (k, v) else kv)) k = some v := by
  induction d with
  | nil => simp at hany
  | cons kv0 d' ih =>
    rw [List.map_cons]
    by_cases hk0 : kv0.1 = k
    · unfold lookupEnv
      rw [if_pos hk0]
      simp only [List.find?_cons, decide_eq_true rfl]
      rfl
    · rw [if_neg hk0]
      unfold lookupEnv
      simp only [List.find?_cons, decide_eq_false hk0]
      have hany' : d'.any (fun kv => decide (kv.1 = k)) = true := by
        rcases List.any_eq_true.mp hany with ⟨x, hx, hpx⟩
        rcases List.mem_cons.mp hx with he | hm
        · subst he
          simp [hk0] at hpx
        · exact List.any_eq_true.mpr ⟨x, hm, hpx⟩
      exact ih hany'

theorem lookup_map_subst_other {d : List (List Char × List Char)} {k1 v k : List Char}
    (hne : k1 ≠ k) :
    lookupEnv (d.map (fun kv => if kv.1 = k1 then (k1, v) else kv)) k = lookupEnv d k := by
  induction d with
  | nil => rfl
  | cons kv0 d' ih =>
    rw [List.map_cons]
    unfold lookupEnv
    by_cases hk0 : kv0.1 = k1
    · rw [if_pos hk0]
      simp only [List.find?_cons, decide_eq_false hne, decide_eq_false (hk0 ▸ hne)]
      exact ih
    · rw [if_neg hk0]
      simp only [List.find?_cons]
      cases hp : decide (kv0.1 = k) with
      | true => rfl
      | false => exact ih

theorem lookupEnv_dictInsert (d : List (List Char × List Char)) (k1 v k : List Char) :
    lookupEnv (dictInsert d k1 v) k = if k1 = k then some v else lookupEnv d k := by
  unfold dictInsert
  by_cases hany : d.any (fun kv => decide (kv.1 = k1)) = true
  · rw [if_pos hany]
    by_cases hk1 : k1 = k
    · rw [if_pos hk1]
      subst hk1
      exact lookup_map_subst_self hany
    · rw [if_neg hk1]
      exact lookup_map_subst_other hk1
  · rw [if_neg hany]
    unfold lookupEnv
    rw [List.find?_append]
    by_cases hk1 : k1 = k
    · rw [if_pos hk1]
      subst hk1
      have hnone : d.find? (fun kv => decide (kv.1 = k1)) = none := by
        rw [List.find?_eq_none]
        intro x hx hpx
        exact hany (List.any_eq_true.mpr ⟨x, hx, hpx⟩)
      rw [hnone]
      simp only [Option.none_or, List.find?_cons, decide_eq_true rfl]
      rfl
    · rw [if_neg hk1]
      have hnone2 : ([((k1 : List Char), v)].find? (fun kv => decide (kv.1 = k))) = none := by
        simp only [List.find?_cons, decide_eq_false hk1]
        rfl
      rw [hnone2, Option.or_none]

theorem lastValD_cons (p : List Char × List Char) (ps : List (List Char × List Char))
    (k : List Char) (dflt : Option (List Char)) :
    lastValD (p :: ps) k dflt = lastValD ps k (if p.1 = k then some p.2 else dflt) := by
  unfold lastValD
  rw [List.reverse_cons, List.find?_append]
  cases hf : ps.reverse.find? (fun kv => decide (kv.1 = k)) with
  | some kv => rfl
  | none =>
    simp only [Option.none_or, List.find?_cons]
    by_cases hp : p.1 = k
    · simp only [decide_eq_true hp, if_pos hp]
    · simp only [decide_eq_false hp, if_neg hp]
      rfl

theorem lookupEnv_foldl (lines : List (List Char)) (d : List (List Char × List Char))
    (k : List Char) :
    lookupEnv (lines.foldl readStep d) k =
      lastValD (lines.filterMap parseLine) k (lookupEnv d k) := by
  induction lines generalizing d with
  | nil => rfl
  | cons line rest ih =>
    rw [List.foldl_cons, ih]
    cases hp : parseLine line with
    | none =>
      rw [show readStep d line = d from by simp [readStep, hp]]
      simp [List.filterMap_cons, hp]
    | some kv =>
      rw [show readStep d line = dictInsert d kv.1 kv.2 from by simp [readStep, hp]]
      rw [List.filterMap_cons_some hp, lastValD_cons, lookupEnv_dictInsert]

/-! ## Retry loops: sleep schedules and exhaustion -/

theorem get_api_keys_go_sleeps (o : Nat → ApiAttempt) (l : List Nat) :
    (get_api_keys_go o l).2 <+: l.map (fun a => a * 5) := by
  induction l with
  | nil => simp [get_api_keys_go]
  | cons a rest ih =>
    cases h : apiAttemptResult (o a) with
    | some ks => simp [get_api_keys_go, h, List.nil_prefix]
    | none =>
      simp only [get_api_keys_go, h, List.map_cons]
      exact List.cons_prefix_cons.mpr ⟨rfl, ih⟩

theorem get_project_id_go_sleeps (o : Nat → Option (List Char)) (l : List Nat) :
    ∀ d ∈ (get_project_id_go o l).2, d = 10 := by
  induction l with
  | nil => simp [get_project_id_go]
  | cons a rest ih =>
    cases h : o a with
    | some pid => simp [get_project_id_go, h]
    | none =>
      simp only [get_project_id_go, h]
      intro d hd
      rcases List.mem_cons.mp hd with he | hm
      · exact he
      · exact ih d hm

theorem getElem?_of_prefix {l1 l2 : List Nat} {i : Nat} {d : Nat} (hp : l1 <+: l2)
    (h : l1[i]? = some d) : l2[i]? = some d := by
  obtain ⟨t, rfl⟩ := hp
  have hi : i < l1.length := by
    rcases Nat.lt_or_ge i l1.length with hlt | hge
    · exact hlt
    · rw [List.getElem?_eq_none hge] at h
      exact absurd h (by simp)
  rw [List.getElem?_append_left hi]
  exact h

theorem attempts5_getElem? {i k : Nat} (h : attemptsList5[i]? = some k) : k = i + 1 := by
  match i with
  | 0 => simp [attemptsList5] at h; omega
  | 1 => simp [attemptsList5] at h; omega
  | 2 => simp [attemptsList5] at h; omega
  | 3 => simp [attemptsList5] at h; omega
  | 4 => simp [attemptsList5] at h; omega
  | n + 5 => exact absurd h (by simp [attemptsList5])

theorem plainKey_no_eq {k : List Char} (h : plainKey k) : '=' ∉ k :=
  fun hm => absurd (h '=' hm) (by decide)

theorem plainKey_no_nl {k : List Char} (h : plainKey k) : '\n' ∉ k :=
  fun hm => absurd (h '\n' hm) (by decide)

/-! ## Claims -/

/-- Claim C1, counterexample to the literal statement: with the single-entry
mapping sending A to the two-line value "x\nA=y", synchronizing an empty file
twice does not reproduce the result of synchronizing it once (the second pass
rewrites each of the two appended A-lines into two lines again). -/
theorem c1_counterexample :
    update_env_file [(strL "A", strL "x\nA=y")]
        (update_env_file [(strL "A", strL "x\nA=y")] (strL "")) ≠
      update_env_file [(strL "A", strL "x\nA=y")] (strL "") := by decide

/-- Claim C1 (amended): environment-file synchronization is idempotent for
every starting file text and every well-formed mapping: distinct plain keys
(letters, digits, underscore, hence free of regular-expression
metacharacters) and plain values (no newline, no backslash, hence inserted
literally by re.sub).  Applying the pass twice yields byte-identical file
content. -/
theorem c1_sync_idempotent (m : List (List Char × List Char)) (c : List Char)
    (hnd : (m.map Prod.fst).Nodup)
    (hm : ∀ kv ∈ m, plainKey kv.1 ∧ plainValue kv.2) :
    update_env_file m (update_env_file m c) = update_env_file m c := by
  have hknl : ∀ kv ∈ m, '\n' ∉ kv.1 ∧ '\n' ∉ kv.2 :=
    fun kv h => ⟨plainKey_no_nl (hm kv h).1, (hm kv h).2.1⟩
  have hk : ∀ kv ∈ m, '=' ∉ kv.1 := fun kv h => plainKey_no_eq (hm kv h).1
  have h1 : splitLines (update_env_file m (update_env_file m c)) =
      splitLines (update_env_file m c) := by
    rw [splitLines_update_env_file hknl, splitLines_update_env_file hknl]
    exact updateLines_idem m hnd hk _
  calc update_env_file m (update_env_file m c)
      = joinLines (splitLines (update_env_file m (update_env_file m c))) :=
        (joinLines_splitLines _).symm
    _ = joinLines (splitLines (update_env_file m c)) := by rw [h1]
    _ = update_env_file m c := joinLines_splitLines _

/-- Witness for the amended claim C1 at a concrete mapping and file. -/
theorem c1_sync_idempotent_witness :
    (((([(strL "SUPABASE_URL", strL "u1"), (strL "SUPABASE_ANON_KEY", strL "k1")]).map
        Prod.fst).Nodup) ∧
      (∀ kv ∈ [(strL "SUPABASE_URL", strL "u1"), (strL "SUPABASE_ANON_KEY", strL "k1")],
        plainKey kv.1 ∧ plainValue kv.2)) ∧
    update_env_file [(strL "SUPABASE_URL", strL "u1"), (strL "SUPABASE_ANON_KEY", strL "k1")]
        (update_env_file
          [(strL "SUPABASE_URL", strL "u1"), (strL "SUPABASE_ANON_KEY", strL "k1")]
          (strL "SUPABASE_URL=old\n# note")) =
      update_env_file [(strL "SUPABASE_URL", strL "u1"), (strL "SUPABASE_ANON_KEY", strL "k1")]
        (strL "SUPABASE_URL=old\n# note") :=
  ⟨⟨by decide, by decide⟩, c1_sync_idempotent _ _ (by decide) (by decide)⟩

/-- Claim C3, counterexample to the literal statement: a file that already
holds two active A-lines still holds two after a pass that synchronizes A (the
regex sub rewrites both; nothing deduplicates). -/
theorem c3_counterexample :
    activeCount (strL "A")
      (splitLines (update_env_file [(strL "A", strL "v")] (strL "A=1\nA=2"))) = 2 := by
  decide

/-- Claim C3 (amended): a synchronization pass preserves the invariant rather
than establishing it: if the starting file has at most one active (non-comment)
line per key, and the mapping has plain keys (letters, digits, underscore) and
plain values (no newline, no backslash), then after the pass every key still
has at most one active line. -/
theorem c3_at_most_one_active (m : List (List Char × List Char)) (c : List Char)
    (hm : ∀ kv ∈ m, plainKey kv.1 ∧ plainValue kv.2)
    (h : ∀ k0, activeCount k0 (splitLines c) ≤ 1) :
    ∀ k0, activeCount k0 (splitLines (update_env_file m c)) ≤ 1 := by
  have hknl : ∀ kv ∈ m, '\n' ∉ kv.1 ∧ '\n' ∉ kv.2 :=
    fun kv hh => ⟨plainKey_no_nl (hm kv hh).1, (hm kv hh).2.1⟩
  rw [splitLines_update_env_file hknl]
  exact activeCount_updateLines m (fun kv hh => plainKey_no_eq (hm kv hh).1) _ h

/-- Witness for the amended claim C3 at a concrete mapping and file. -/
theorem c3_at_most_one_active_witness :
    ((∀ kv ∈ [(strL "A", strL "v")], plainKey kv.1 ∧ plainValue kv.2) ∧
      (∀ k0, activeCount k0 (splitLines (strL "")) ≤ 1)) ∧
    activeCount (strL "A")
      (splitLines (update_env_file [(strL "A", strL "v")] (strL ""))) ≤ 1 := by
  have hinv : ∀ k0, activeCount k0 (splitLines (strL "")) ≤ 1 := by
    intro k0
    unfold activeCount
    rw [show splitLines (strL "") = [[]] from rfl, List.countP_singleton]
    have hmk : matchesKey k0 [] = false := by
      rw [Bool.eq_false_iff]
      intro hh
      rw [matchesKey_iff] at hh
      have := List.IsPrefix.length_le hh
      simp at this
    rw [hmk]
    simp
  exact ⟨⟨by decide, hinv⟩, c3_at_most_one_active _ _ (by decide) hinv (strL "A")⟩

/-- Claim C4, counterexample to the literal statement: for a key absent from
the file but a value containing a newline, the pass does not append exactly
one new line KEY=value (the appended text spans two lines). -/
theorem c4_counterexample :
    (splitLines (strL "B=1")).any (matchesKey (strL "A")) = false ∧
      splitLines (update_env_file [(strL "A", strL "x\ny")] (strL "B=1")) ≠
        splitLines (strL "B=1") ++ [lineFor (strL "A") (strL "x\ny")] := by decide

/-- Claim C4 (amended): for a plain key (letters, digits, underscore, hence
matched literally by the pattern) and a plain value (no newline, no
backslash, hence inserted literally by re.sub), a key matching no line is
appended as exactly one new KEY=value line, and a key matching exactly one
line has that line replaced in place with the line count unchanged. -/
theorem c4_absent_appends_present_replaces (c k v : List Char)
    (hpk : plainKey k) (hpv : plainValue v) :
    ((splitLines c).countP (matchesKey k) = 0 →
      splitLines (update_env_file [(k, v)] c) = splitLines c ++ [lineFor k v]) ∧
    ((splitLines c).countP (matchesKey k) = 1 →
      splitLines (update_env_file [(k, v)] c) =
        (splitLines c).map (fun l => if matchesKey k l then lineFor k v else l) ∧
      (splitLines (update_env_file [(k, v)] c)).length = (splitLines c).length) := by
  have hknl : '\n' ∉ k := plainKey_no_nl hpk
  have hvnl : '\n' ∉ v := hpv.1
  have hu : update_env_file [(k, v)] c = syncKey c k v := rfl
  constructor
  · intro h0
    have hany : (splitLines c).any (matchesKey k) = false := by
      rw [Bool.eq_false_iff]
      intro hh
      obtain ⟨l, hl, hml⟩ := List.any_eq_true.mp hh
      exact absurd hml (List.countP_eq_zero.mp h0 l hl)
    rw [hu, splitLines_syncKey hknl hvnl]
    simp [syncLines, hany]
  · intro h1
    have hany : (splitLines c).any (matchesKey k) = true := by
      rcases List.countP_pos_iff.mp (by omega : 0 < (splitLines c).countP (matchesKey k))
        with ⟨l, hl, hml⟩
      exact List.any_eq_true.mpr ⟨l, hl, hml⟩
    have hsub : splitLines (update_env_file [(k, v)] c) =
        (splitLines c).map (fun l => if matchesKey k l then lineFor k v else l) := by
      rw [hu, splitLines_syncKey hknl hvnl]
      simp [syncLines, hany, substKey]
    exact ⟨hsub, by rw [hsub, List.length_map]⟩

/-- Witness for the amended claim C4: the absent case appends one line, the
present-once case replaces in place. -/
theorem c4_absent_appends_present_replaces_witness :
    (plainKey (strL "A") ∧ plainValue (strL "new") ∧
      (splitLines (strL "B=1")).countP (matchesKey (strL "A")) = 0 ∧
      (splitLines (strL "A=old\nB=2")).countP (matchesKey (strL "A")) = 1) ∧
    splitLines (update_env_file [(strL "A", strL "new")] (strL "B=1")) =
      splitLines (strL "B=1") ++ [lineFor (strL "A") (strL "new")] ∧
    (splitLines (update_env_file [(strL "A", strL "new")] (strL "A=old\nB=2"))).length =
      (splitLines (strL "A=old\nB=2")).length :=
  ⟨⟨by decide, by decide, by decide, by decide⟩,
    (c4_absent_appends_present_replaces (strL "B=1") (strL "A") (strL "new")
      (by decide) (by decide)).1 (by decide),
    ((c4_absent_appends_present_replaces (strL "A=old\nB=2") (strL "A") (strL "new")
      (by decide) (by decide)).2 (by decide)).2⟩

/-- Claim C5 (confirmed): synchronizing the two-entry mapping into an empty
environment file yields exactly the two lines, in insertion order.  The file
text is the two lines each preceded by the separating newline the code
appends, so the full line list is an initial empty line followed by the two
entry lines; the non-blank lines are exactly the two, in order. -/
theorem c5_two_entry_scenario :
    update_env_file
        [(strL "SUPABASE_URL", strL "https://abc.supabase.co"),
         (strL "SUPABASE_ANON_KEY", strL "k1")] (strL "") =
      strL "\nSUPABASE_URL=https://abc.supabase.co\nSUPABASE_ANON_KEY=k1" ∧
    ((splitLines
          (update_env_file
            [(strL "SUPABASE_URL", strL "https://abc.supabase.co"),
             (strL "SUPABASE_ANON_KEY", strL "k1")] (strL ""))).filter
        (fun l => decide (l ≠ []))) =
      [lineFor (strL "SUPABASE_URL") (strL "https://abc.supabase.co"),
       lineFor (strL "SUPABASE_ANON_KEY") (strL "k1")] := by decide

/-- Claim C10, counterexample to the literal statement: with a value
containing a newline, a line of the file that matches no key of the mapping
(the second line of the substituted value, "y") appears among the non-matching
lines of the result, so the non-matching lines are not left unchanged. -/
theorem c10_counterexample :
    nonMatchingLines [(strL "A", strL "x\ny")]
        (splitLines (update_env_file [(strL "A", strL "x\ny")] (strL "B=0\nA=0\nC=0"))) ≠
      nonMatchingLines [(strL "A", strL "x\ny")] (splitLines (strL "B=0\nA=0\nC=0")) := by
  decide

theorem nonMatchingLines_pass (m : List (List Char × List Char)) (ls : List (List Char)) :
    nonMatchingLines m (ls.map (syncedLine m) ++ appendedLines m ls) =
      nonMatchingLines m ls := by
  unfold nonMatchingLines
  rw [List.filter_append]
  have happ : (appendedLines m ls).filter
      (fun l => !(m.any (fun kv => matchesKey kv.1 l))) = [] := by
    rw [List.filter_eq_nil_iff]
    intro L hL
    obtain ⟨kv, hkv, hLe⟩ := List.mem_map.mp hL
    have hkvm : kv ∈ m := (List.mem_filter.mp hkv).1
    have hany : m.any (fun kv' => matchesKey kv'.1 L) = true :=
      List.any_eq_true.mpr ⟨kv, hkvm, hLe ▸ matchesKey_lineFor_self kv.1 kv.2⟩
    simp [hany]
  rw [happ, List.append_nil]
  clear happ
  induction ls with
  | nil => rfl
  | cons l t ih =>
    rw [List.map_cons]
    cases hfind : m.find? (fun kv => matchesKey kv.1 l) with
    | some kv =>
      have h1 : syncedLine m l = lineFor kv.1 kv.2 := by simp [syncedLine, hfind]
      have hkvm : kv ∈ m := List.mem_of_find?_eq_some hfind
      have hany1 : m.any (fun kv' => matchesKey kv'.1 (lineFor kv.1 kv.2)) = true :=
        List.any_eq_true.mpr ⟨kv, hkvm, matchesKey_lineFor_self kv.1 kv.2⟩
      have hany2 : m.any (fun kv' => matchesKey kv'.1 l) = true :=
        List.any_eq_true.mpr ⟨kv, hkvm, by simpa using List.find?_some hfind⟩
      rw [h1, List.filter_cons_of_neg (by simp [hany1]),
        List.filter_cons_of_neg (by simp [hany2])]
      exact ih
    | none =>
      have h1 : syncedLine m l = l := by simp [syncedLine, hfind]
      rw [h1, List.filter_cons, List.filter_cons, ih]

/-- Claim C10 (amended): for well-formed mappings (distinct plain keys of
letters, digits and underscore; plain values without newline or backslash)
one pass produces exactly: each input line rewritten by the one matching
entry if any (in place, in order), followed by the appended KEY=value lines
of absent keys in mapping order; the lines matching no key of the mapping
are preserved byte-for-byte in relative order. -/
theorem c10_pass_structure (m : List (List Char × List Char)) (c : List Char)
    (hnd : (m.map Prod.fst).Nodup)
    (hm : ∀ kv ∈ m, plainKey kv.1 ∧ plainValue kv.2) :
    splitLines (update_env_file m c) =
      (splitLines c).map (syncedLine m) ++ appendedLines m (splitLines c) ∧
    nonMatchingLines m (splitLines (update_env_file m c)) =
      nonMatchingLines m (splitLines c) := by
  have hknl : ∀ kv ∈ m, '\n' ∉ kv.1 ∧ '\n' ∉ kv.2 :=
    fun kv h => ⟨plainKey_no_nl (hm kv h).1, (hm kv h).2.1⟩
  have hk : ∀ kv ∈ m, '=' ∉ kv.1 := fun kv h => plainKey_no_eq (hm kv h).1
  have h1 : splitLines (update_env_file m c) =
      (splitLines c).map (syncedLine m) ++ appendedLines m (splitLines c) := by
    rw [splitLines_update_env_file hknl]
    exact updateLines_eq m hnd hk _
  refine ⟨h1, ?_⟩
  rw [h1]
  exact nonMatchingLines_pass m _

/-- Witness for the amended claim C10 at a concrete mapping and file. -/
theorem c10_pass_structure_witness :
    ((([(strL "A", strL "1")].map Prod.fst).Nodup) ∧
      (∀ kv ∈ [(strL "A", strL "1")], plainKey kv.1 ∧ plainValue kv.2)) ∧
    splitLines (update_env_file [(strL "A", strL "1")] (strL "B=0\nA=0")) =
      (splitLines (strL "B=0\nA=0")).map (syncedLine [(strL "A", strL "1")]) ++
        appendedLines [(strL "A", strL "1")] (splitLines (strL "B=0\nA=0")) :=
  ⟨⟨by decide, by decide⟩,
    (c10_pass_structure [(strL "A", strL "1")] (strL "B=0\nA=0")
      (by decide) (by decide)).1⟩

/-- Claim C9 (confirmed): read_env_file scans the lines in order, skipping
lines that strip to empty, start with the hash sign, or contain no equals
sign; each kept line splits at its first equals sign (the value may contain
further equals signs); and looking a key up in the resulting mapping yields
the value of the last line that assigned it. -/
theorem c9_read_env_file_last_wins :
    (∀ (content : List Char) (k : List Char),
      lookupEnv (read_env_file content) k =
        lastValD ((splitLines content).filterMap parseLine) k none) ∧
    parseLine (strL "   ") = none ∧
    parseLine (strL "  # X=1") = none ∧
    parseLine (strL "noequalsign") = none ∧
    parseLine (strL " K=a=b ") = some (strL "K", strL "a=b") := by
  refine ⟨?_, by decide, by decide, by decide, by decide⟩
  intro content k
  unfold read_env_file
  rw [lookupEnv_foldl]
  rfl

/-- Claim C2, counterexample to the literal statement: project creation is a
mutating operation whose create command never succeeds within its three
attempts, yet the process is not terminated: setup.py deliberately continues,
and when the subsequent project-id lookup succeeds the function returns
normally. -/
theorem c2_counterexample :
    create_cmd_loop (fun _ => false) attemptsList3 = false ∧
      (create_project (fun _ => false) (fun _ => some (strL "projid")) (strL "pw")).2 =
        Except.ok (strL "projid", strL "pw") := ⟨rfl, rfl⟩

/-- Claim C2 (amended): on exhaustion, the read-only lookups (project-id
lookup, existence check, API-key retrieval) return an absent or false result
to the caller, and the mutating operations link, migration push and auth
configuration terminate the process; project creation is the exception: its
create-command exhaustion alone does not terminate, and the process exits only
when the subsequent project-id lookup also comes back empty. -/
theorem c2_exhaustion_behavior :
    (∀ o : Nat → Option (List Char), (∀ a, o a = none) → (get_project_id o).1 = none) ∧
    (∀ o : Nat → Option Bool, (∀ a, o a = none) → check_project_exists o = false) ∧
    (∀ o : Nat → ApiAttempt, (∀ a, apiAttemptResult (o a) = none) →
      (get_api_keys o none).1 = (none, none)) ∧
    (∀ o : Nat → Bool, (∀ a, o a = false) → link_project o = Except.error ()) ∧
    (∀ o : Nat → Bool, (∀ a, o a = false) → apply_migrations o = Except.error ()) ∧
    (∀ o1 o2 : Nat → Bool, (∀ a, o1 a = false) → setup_auth_urls o1 o2 = Except.error ()) ∧
    (∀ (co : Nat → Bool) (ido : Nat → Option (List Char)) (pw : List Char),
      (∀ a, co a = false) → (∀ a, ido a = none) →
      (create_project co ido pw).2 = Except.error ()) := by
  refine ⟨?_, ?_, ?_, ?_, ?_, ?_, ?_⟩
  · intro o h
    simp [get_project_id, get_project_id_go, attemptsList5, h]
  · intro o h
    simp [check_project_exists, check_project_exists_go, attemptsList3, h]
  · intro o h
    simp [get_api_keys, get_api_keys_go, attemptsList5, h]
  · intro o h
    simp [link_project, link_project_go, attemptsList5, h]
  · intro o h
    simp [apply_migrations, apply_migrations_go, attemptsList3, h]
  · intro o1 o2 h
    simp [setup_auth_urls, auth_config_loop, attemptsList3, h]
  · intro co ido pw hc hi
    simp [create_project, get_project_id, get_project_id_go, attemptsList5, hi]

/-- Witness for the amended claim C2 at concrete always-failing oracles. -/
theorem c2_exhaustion_behavior_witness :
    (get_project_id (fun _ => none)).1 = none ∧
    check_project_exists (fun _ => none) = false ∧
    (get_api_keys (fun _ => ApiAttempt.cmdFailed) none).1 = (none, none) ∧
    link_project (fun _ => false) = Except.error () ∧
    apply_migrations (fun _ => false) = Except.error () ∧
    setup_auth_urls (fun _ => false) (fun _ => false) = Except.error () ∧
    (create_project (fun _ => false) (fun _ => none) (strL "pw")).2 = Except.error () :=
  ⟨c2_exhaustion_behavior.1 _ (fun _ => rfl),
    c2_exhaustion_behavior.2.1 _ (fun _ => rfl),
    c2_exhaustion_behavior.2.2.1 _ (fun _ => rfl),
    c2_exhaustion_behavior.2.2.2.1 _ (fun _ => rfl),
    c2_exhaustion_behavior.2.2.2.2.1 _ (fun _ => rfl),
    c2_exhaustion_behavior.2.2.2.2.2.1 _ _ (fun _ => rfl),
    c2_exhaustion_behavior.2.2.2.2.2.2 _ _ _ (fun _ => rfl) (fun _ => rfl)⟩

/-- Claim C7, counterexample to the literal statement: the project-id lookup
of setup.py sleeps a fixed 10 seconds after every failed attempt; its delay
trace on full exhaustion is five tens, which no linear schedule
delay = attempt times base can produce for the first two retries. -/
theorem c7_counterexample :
    (get_project_id (fun _ => none)).2 = [10, 10, 10, 10, 10] ∧
      ¬∃ base : Nat, 10 = 1 * base ∧ 10 = 2 * base := by
  refine ⟨rfl, ?_⟩
  rintro ⟨b, h1, h2⟩
  omega

/-- Claim C7 (amended): the API-key retrieval backs off linearly, the i-th
recorded delay of any run being (i+1) times the base of five seconds, while
the project-id lookup waits a fixed ten seconds between attempts. -/
theorem c7_backoff_schedules (o2 : Nat → ApiAttempt)
    (fb : Option (List Char × List Char)) (o : Nat → Option (List Char)) :
    (∀ i d, (get_api_keys o2 fb).2[i]? = some d → d = (i + 1) * 5) ∧
    (∀ d ∈ (get_project_id o).2, d = 10) := by
  constructor
  · intro i d h
    have htr : (get_api_keys o2 fb).2 = (get_api_keys_go o2 attemptsList5).2 := by
      unfold get_api_keys
      rcases hgo : get_api_keys_go o2 attemptsList5 with ⟨res, tr⟩
      cases res with
      | some ks => rfl
      | none =>
        cases fb with
        | some ks => rfl
        | none => rfl
    rw [htr] at h
    have hp := getElem?_of_prefix (get_api_keys_go_sleeps o2 attemptsList5) h
    rw [List.getElem?_map] at hp
    cases hk : attemptsList5[i]? with
    | none => rw [hk] at hp; exact absurd hp (by simp)
    | some a =>
      rw [hk] at hp
      simp only [Option.map_some'] at hp
      have := attempts5_getElem? hk
      injection hp with hp
      omega
  · exact get_project_id_go_sleeps o attemptsList5

/-- Witness for the amended claim C7: on the always-failing run the second
recorded API-key delay is ten seconds, two retries times the base of five, and
a recorded project-id delay is ten. -/
theorem c7_backoff_schedules_witness :
    ((get_api_keys (fun _ => ApiAttempt.cmdFailed) none).2[1]? = some 10 ∧
      (10 : Nat) ∈ (get_project_id (fun _ => none)).2) ∧
    (10 : Nat) = (1 + 1) * 5 ∧ (10 : Nat) = 10 :=
  ⟨⟨by decide, by decide⟩,
    (c7_backoff_schedules (fun _ => ApiAttempt.cmdFailed) none (fun _ => none)).1 1 10
      (by decide),
    (c7_backoff_schedules (fun _ => ApiAttempt.cmdFailed) none (fun _ => none)).2 10
      (by decide)⟩

/-- Claim C8, counterexample to the literal statement: in create-project.py an
API-key response with exit code zero that fails JSON parsing terminates the
process immediately, even when the raw text carries both keys in
regex-extractable form; no fallback is attempted there. -/
theorem c8_counterexample :
    create_get_api_keys
        (ApiAttempt.jsonBad (some (strL "anonkey")) (some (strL "servicekey"))) =
      Except.error () := rfl

/-- Claim C8 (amended): in setup.py, an attempt whose response fails JSON
parsing succeeds through the regex fallback whenever both extractions match,
so after any failed earlier attempts such an attempt returns the extracted
keys, and a fallback miss only fails that attempt; in create-project.py,
however, a JSON parse failure is immediately fatal regardless of what the
regex would extract. -/
theorem c8_json_fallback :
    (∀ (o : Nat → ApiAttempt) (fb : Option (List Char × List Char))
      (a s : List Char) (i : Nat),
      i ∈ attemptsList5 → (∀ j ∈ attemptsList5, j < i → apiAttemptResult (o j) = none) →
      o i = ApiAttempt.jsonBad (some a) (some s) →
      (get_api_keys o fb).1 = (some a, some s)) ∧
    (∀ ra rs : Option (List Char),
      create_get_api_keys (ApiAttempt.jsonBad ra rs) = Except.error ()) := by
  constructor
  · intro o fb a s i hi hprev hoi
    have hres : apiAttemptResult (o i) = some (a, s) := by
      rw [hoi]
      rfl
    simp only [attemptsList5, List.mem_cons, List.not_mem_nil, or_false] at hi
    rcases hi with rfl | rfl | rfl | rfl | rfl
    · simp [get_api_keys, get_api_keys_go, attemptsList5, hres]
    · have h1 := hprev 1 (by simp [attemptsList5]) (by omega)
      simp [get_api_keys, get_api_keys_go, attemptsList5, h1, hres]
    · have h1 := hprev 1 (by simp [attemptsList5]) (by omega)
      have h2 := hprev 2 (by simp [attemptsList5]) (by omega)
      simp [get_api_keys, get_api_keys_go, attemptsList5, h1, h2, hres]
    · have h1 := hprev 1 (by simp [attemptsList5]) (by omega)
      have h2 := hprev 2 (by simp [attemptsList5]) (by omega)
      have h3 := hprev 3 (by simp [attemptsList5]) (by omega)
      simp [get_api_keys, get_api_keys_go, attemptsList5, h1, h2, h3, hres]
    · have h1 := hprev 1 (by simp [attemptsList5]) (by omega)
      have h2 := hprev 2 (by simp [attemptsList5]) (by omega)
      have h3 := hprev 3 (by simp [attemptsList5]) (by omega)
      have h4 := hprev 4 (by simp [attemptsList5]) (by omega)
      simp [get_api_keys, get_api_keys_go, attemptsList5, h1, h2, h3, h4, hres]
  · intro ra rs
    cases ra <;> cases rs <;> rfl

/-- Witness for the amended claim C8: attempt two fails JSON parsing but both
regex extractions match after a failed first attempt, and the extracted keys
are returned. -/
theorem c8_json_fallback_witness :
    ((2 ∈ attemptsList5) ∧
      (∀ j ∈ attemptsList5, j < 2 →
        apiAttemptResult
          ((fun n => if n = 2 then ApiAttempt.jsonBad (some (strL "ak")) (some (strL "sk"))
            else ApiAttempt.cmdFailed) j) = none) ∧
      (fun n => if n = 2 then ApiAttempt.jsonBad (some (strL "ak")) (some (strL "sk"))
        else ApiAttempt.cmdFailed) 2 =
          ApiAttempt.jsonBad (some (strL "ak")) (some (strL "sk"))) ∧
    (get_api_keys
        (fun n => if n = 2 then ApiAttempt.jsonBad (some (strL "ak")) (some (strL "sk"))
          else ApiAttempt.cmdFailed) none).1 = (some (strL "ak"), some (strL "sk")) :=
  ⟨⟨by decide, by decide, by decide⟩,
    c8_json_fallback.1 _ none (strL "ak") (strL "sk") 2 (by decide) (by decide) (by decide)⟩

/-- Claim C6, counterexample to the literal statement: setup.py's generator
can emit the exclamation mark, a character outside letters, digits and the
curated command-line-safe punctuation that create-project.py documents, and
one of the very characters its comment says to avoid. -/
theorem c6_counterexample :
    '!' ∈ generate_secure_password setup_alphabet 16 (fun _ => 62) ∧
      '!' ∉ ascii_letters ∧ '!' ∉ ascii_digits ∧ '!' ∉ create_punctuation ∧
      '!' ∈ cli_unsafe_chars := by decide

theorem getD_mem_of_lt {l : List Char} {n : Nat} {d : Char} (h : n < l.length) :
    l.getD n d ∈ l := by
  rw [List.getD_eq_getElem?_getD, List.getElem?_eq_getElem h]
  exact List.getElem_mem h

/-- Claim C6 (amended): both generators return exactly the requested number of
characters (default sixteen), drawn from their own fixed alphabets of letters,
digits and punctuation; create-project.py's alphabet avoids every character of
its documented command-line-unsafe set, while setup.py's alphabet includes
unsafe characters such as the exclamation mark. -/
theorem c6_password_generator (n : Nat) (pick : Nat → Nat) :
    (generate_secure_password setup_alphabet n pick).length = n ∧
    (generate_secure_password setup_alphabet n pick).all
      (fun c => decide (c ∈ setup_alphabet)) = true ∧
    (generate_secure_password create_safe_alphabet n pick).length = n ∧
    (generate_secure_password create_safe_alphabet n pick).all
      (fun c => decide (c ∈ create_safe_alphabet)) = true ∧
    create_safe_alphabet.all (fun c => decide (c ∉ cli_unsafe_chars)) = true ∧
    default_password_length = 16 ∧
    ('!' ∈ setup_alphabet ∧ '!' ∈ cli_unsafe_chars) := by
  have hmem : ∀ (alphabet : List Char), 0 < alphabet.length →
      (generate_secure_password alphabet n pick).all
        (fun c => decide (c ∈ alphabet)) = true := by
    intro alphabet hpos
    rw [List.all_eq_true]
    intro c hc
    obtain ⟨i, _, hce⟩ := List.mem_map.mp hc
    rw [← hce]
    exact decide_eq_true (getD_mem_of_lt (Nat.mod_lt _ hpos))
  refine ⟨?_, hmem setup_alphabet (by decide), ?_,
    hmem create_safe_alphabet (by decide), by decide, rfl, by decide, by decide⟩
  · simp [generate_secure_password]
  · simp [generate_secure_password]
